import Mathlib

/-!
Shallow embedding of the hjson-lint pipeline (lexer, parser, linter).

Source strings are modelled as `List Char` (Unicode scalar values); every
length and offset counts scalars.  All concrete inputs used below are
ASCII, where scalar counts and the source's byte counts coincide, and all
slicing the Rust code performs happens at character boundaries, so the
token streams correspond one to one.
-/

namespace HL

/-- Kinds of token, from src/src/lexer/mod.rs `TokenKind`. -/
inductive TokenKind where
  | eof
  | boolean
  | lineComment
  | blockComment
  | hashComment
  | null
  | integer
  | float
  | openBrace
  | closeBrace
  | openBracket
  | closeBracket
  | colon
  | comma
  | textSingle
  | textDouble
  | textMulti
  | textUnquoted
  | newLine
  | whitespace
deriving DecidableEq, Repr

/-- Display name of a token kind, from the `Display` impl in src/src/lexer/mod.rs. -/
def kindName : TokenKind → String
  | .eof => "EOF"
  | .boolean => "Boolean"
  | .lineComment => "line comment"
  | .blockComment => "block comment"
  | .hashComment => "hash comment"
  | .null => "null"
  | .integer => "integer"
  | .float => "float"
  | .openBrace => "\x7b"
  | .closeBrace => "\x7d"
  | .openBracket => "["
  | .closeBracket => "]"
  | .colon => ":"
  | .comma => ","
  | .textSingle => "single-quoted string"
  | .textDouble => "double-quoted string"
  | .textMulti => "multi-line string"
  | .textUnquoted => "unquoted string"
  | .newLine => "newline"
  | .whitespace => "whitespace"

/-- A lexed token before position information is attached: `Token` in
src/src/lexer/mod.rs. -/
structure Token where
  kind : TokenKind
  len : Nat
deriving DecidableEq, Repr

/-- Line/column/byte position, from `Cursor` in hjson-lint/src/lexer/iter.rs. -/
structure Cursor where
  line : Nat
  column : Nat
  byteOffset : Nat
deriving DecidableEq, Repr

/-- Models `Cursor::default()`: line 1, column 1, offset 0. -/
def Cursor.init : Cursor := ⟨1, 1, 0⟩

/-- A positioned token, from `Span` in hjson-lint/src/lexer/iter.rs. -/
structure Span where
  kind : TokenKind
  start : Cursor
  len : Nat
deriving DecidableEq, Repr

/-- Lexing mode, `TextMode` in hjson-lint/src/lexer/iter.rs. -/
inductive TextMode where
  | key
  | value
deriving DecidableEq, Repr

/-! Character constants, written numerically. -/

def nlC : Char := Char.ofNat 10
def tabC : Char := Char.ofNat 9
def quoteS : Char := Char.ofNat 39
def quoteD : Char := Char.ofNat 34
def bslashC : Char := Char.ofNat 92
def obraceC : Char := Char.ofNat 123
def cbraceC : Char := Char.ofNat 125
def obrackC : Char := Char.ofNat 91
def cbrackC : Char := Char.ofNat 93
def colonC : Char := Char.ofNat 58
def commaC : Char := Char.ofNat 44
def minusC : Char := Char.ofNat 45
def plusC : Char := Char.ofNat 43
def dotC : Char := Char.ofNat 46
def zeroC : Char := Char.ofNat 48
def slashC : Char := Char.ofNat 47
def starC : Char := Char.ofNat 42
def hashC : Char := Char.ofNat 35
def eLowC : Char := Char.ofNat 101
def eUppC : Char := Char.ofNat 69

/-- Rust `char::is_whitespace`: the Unicode `White_Space` property. -/
def rustWs (c : Char) : Bool :=
  let n := c.toNat
  (9 ≤ n && n ≤ 13) || n = 32 || n = 133 || n = 160 || n = 5760 ||
  (8192 ≤ n && n ≤ 8202) || n = 8232 || n = 8233 || n = 8239 || n = 8287 || n = 12288

/-- Rust `char::is_ascii_digit`. -/
def asciiDigit (c : Char) : Bool := 48 ≤ c.toNat && c.toNat ≤ 57

/-- Index of the first occurrence of the pattern `pat` as a contiguous
sublist (Rust `str::find(&str)`). -/
def findSub (pat : List Char) : List Char → Option Nat
  | [] => if pat.isPrefixOf ([] : List Char) then some 0 else none
  | c :: rest =>
    if pat.isPrefixOf (c :: rest) then some 0
    else (findSub pat rest).map (· + 1)

/-- Scan for the first index `i ≠ 0` holding the quote `q` whose preceding
character is not a backslash; used by the quoted-string recognizers. -/
def findCQAux (q : Char) (prev : Char) (i : Nat) : List Char → Option Nat
  | [] => none
  | c :: cs =>
    if c = q && prev ≠ bslashC then some i else findCQAux q c (i + 1) cs

/-- Rust `input.char_indices().find(|(i, c)| *i != 0 && *c == q &&
!input[..*i].ends_with('\\'))` from the key/text recognizers. -/
def findCQ (q : Char) : List Char → Option Nat
  | [] => none
  | c0 :: rest => findCQAux q c0 1 rest

/-- Index of the last newline (Rust `str::rfind('\n')`). -/
def rfindNl (l : List Char) : Option Nat :=
  (l.reverse.findIdx? (· = nlC)).map (fun j => l.length - 1 - j)

/-- Models `Comment::parse` from src/src/comment.rs. -/
def commentParse (input : List Char) : Option Token :=
  if input.take 2 = [slashC, slashC] then
    some ⟨.lineComment, (input.findIdx? (· = nlC)).getD input.length⟩
  else if input.take 2 = [slashC, starC] then
    (findSub [starC, slashC] (input.drop 2)).map (fun i => ⟨.blockComment, i + 4⟩)
  else if input.take 1 = [hashC] then
    some ⟨.hashComment, (input.findIdx? (· = nlC)).getD input.length⟩
  else
    none

/-- The symbol recognizer used by the final lexer, with the mapping of
hjson-parser/src/lexer/symbol.rs (each of the six punctuation bytes to its
own kind) — the mapping the parser's `expect(CloseBracket)` and the
linter's own array tests require. -/
def symbolParse (input : List Char) : Option Token :=
  match input.head? with
  | none => none
  | some c =>
    if c = obraceC then some ⟨.openBrace, 1⟩
    else if c = cbraceC then some ⟨.closeBrace, 1⟩
    else if c = obrackC then some ⟨.openBracket, 1⟩
    else if c = cbrackC then some ⟨.closeBracket, 1⟩
    else if c = colonC then some ⟨.colon, 1⟩
    else if c = commaC then some ⟨.comma, 1⟩
    else none

/-- The `Symbol` kinds of src/src/symbol.rs. -/
inductive OldSymbol where
  | openBrace
  | closeBrace
  | openBracket
  | closeBracket
  | colon
  | comma
deriving DecidableEq, Repr

/-- Models `Symbol::parse` from src/src/symbol.rs, mapping each leading
punctuation byte exactly as that file's `match` does (note its arm
for a closing bracket). -/
def symbolParseSrc (input : List Char) : Option (OldSymbol × Nat) :=
  match input.head? with
  | none => none
  | some c =>
    if c = obraceC then some (.openBrace, 1)
    else if c = cbraceC then some (.closeBrace, 1)
    else if c = obrackC then some (.openBracket, 1)
    else if c = cbrackC then some (.openBracket, 1)
    else if c = colonC then some (.colon, 1)
    else if c = commaC then some (.comma, 1)
    else none

/-- Models `Whitespace::parse` from hjson-lint/src/lexer/whitespace.rs. -/
def whitespaceParse (input : List Char) : Option Token :=
  if input.head? = some nlC then some ⟨.newLine, 1⟩
  else
    match (input.findIdx? (fun c => c = nlC || !rustWs c)).getD input.length with
    | 0 => none
    | len => some ⟨.whitespace, len⟩

/-- Models `Key::parse` from src/src/lexer/key.rs. -/
def keyParse (input : List Char) : Option Token :=
  if input.head? = some quoteS then
    (findCQ quoteS input).map (fun idx => ⟨.textSingle, idx + 1⟩)
  else if input.head? = some quoteD then
    (findCQ quoteD input).map (fun idx => ⟨.textDouble, idx + 1⟩)
  else
    let terminators := [commaC, colonC, obrackC, cbrackC, obraceC, cbraceC]
    some ⟨.textUnquoted,
      (input.findIdx? (fun c => rustWs c || terminators.contains c)).getD input.length⟩

/-- Models `Boolean::parse` from src/src/boolean.rs. -/
def booleanParse (input : List Char) : Option Token :=
  if (("true").toList).isPrefixOf input then some ⟨.boolean, 4⟩
  else if (("false").toList).isPrefixOf input then some ⟨.boolean, 5⟩
  else none

/-- Models `Null::parse` from src/src/null.rs. -/
def nullParse (input : List Char) : Option Token :=
  if (("null").toList).isPrefixOf input then some ⟨.null, 4⟩ else none

/-- The number-termination characters of src/src/lexer/number.rs
(`term_symbols`). -/
def numTermSyms : List Char := [commaC, colonC, obrackC, cbrackC, obraceC, cbraceC, nlC]

/-- The final check of `Number::parse`: strip whitespace other than
newlines, then require end of input or a terminator character. -/
def numberTerminated (rest : List Char) : Bool :=
  let r := rest.dropWhile (fun c => rustWs c && c ≠ nlC)
  r.isEmpty || (match r.head? with
    | some c => numTermSyms.contains c
    | none => false)

/-- The integer-part stage of `Number::parse`: a single leading zero, or
a non-empty digit run; no digits means the whole match fails. -/
def numIntStage (len1 : Nat) (in1 : List Char) : Option (Nat × List Char) :=
  if in1.head? = some zeroC then some (len1 + 1, in1.drop 1)
  else
    match (in1.findIdx? (fun c => !asciiDigit c)).getD in1.length with
    | 0 => none
    | x => some (len1 + x, in1.drop x)

/-- The fraction stage of `Number::parse`: a dot followed by at least one
digit promotes the match to Float; otherwise nothing is consumed. -/
def numFracStage (len2 : Nat) (in2 : List Char) : TokenKind × Nat × List Char :=
  if in2.head? = some dotC then
    if 0 < ((in2.drop 1).findIdx? (fun c => !asciiDigit c)).getD (in2.drop 1).length
    then
      (.float,
       len2 + 1 + ((in2.drop 1).findIdx? (fun c => !asciiDigit c)).getD (in2.drop 1).length,
       in2.drop (1 + ((in2.drop 1).findIdx? (fun c => !asciiDigit c)).getD (in2.drop 1).length))
    else (.integer, len2, in2)
  else (.integer, len2, in2)

/-- Length of the exponent marker with its optional sign (`exp_len` in
`Number::parse`). -/
def expLenOf (in3 : List Char) : Nat :=
  if (in3.drop 1).head? = some plusC || (in3.drop 1).head? = some minusC
  then 2 else 1

/-- The exponent stage of `Number::parse`: e/E, an optional sign, then at
least one digit promotes the match to Float; otherwise nothing is
consumed. -/
def numExpStage (kind3 : TokenKind) (len3 : Nat) (in3 : List Char) :
    TokenKind × Nat × List Char :=
  if in3.head? = some eLowC || in3.head? = some eUppC then
    if 0 < ((in3.drop (expLenOf in3)).findIdx? (fun c => !asciiDigit c)).getD
        (in3.drop (expLenOf in3)).length
    then
      (.float,
       len3 + expLenOf in3 +
         ((in3.drop (expLenOf in3)).findIdx? (fun c => !asciiDigit c)).getD
           (in3.drop (expLenOf in3)).length,
       in3.drop (expLenOf in3 +
         ((in3.drop (expLenOf in3)).findIdx? (fun c => !asciiDigit c)).getD
           (in3.drop (expLenOf in3)).length))
    else (kind3, len3, in3)
  else (kind3, len3, in3)

/-- The integer, fraction and exponent stages of `Number::parse` run in
sequence from an already-consumed prefix of length `len1`. -/
def numberScanCore (len1 : Nat) (in1 : List Char) :
    Option (TokenKind × Nat × List Char) :=
  match numIntStage len1 in1 with
  | none => none
  | some (len2, in2) =>
    match numFracStage len2 in2 with
    | (kind3, len3, in3) => some (numExpStage kind3 len3 in3)

/-- The staged numeric scan of `Number::parse` (src/src/lexer/number.rs)
before its termination check: an optional leading minus, then the
integer, fraction and exponent stages, each advancing the matched length
and the remaining input. -/
def numberScan (input0 : List Char) : Option (TokenKind × Nat × List Char) :=
  if input0.head? = some minusC then numberScanCore 1 (input0.drop 1)
  else numberScanCore 0 input0

/-- Models `Number::parse` from src/src/lexer/number.rs: the numeric grammar
followed by the termination check. -/
def numberParse (input : List Char) : Option Token :=
  match numberScan input with
  | none => none
  | some (kind, len, rest) =>
    if numberTerminated rest then some ⟨kind, len⟩ else none

/-- Trimmed length of a line: `input[..eol].trim_end().len()` in
`Text::parse`. -/
def trimEndLen (l : List Char) : Nat :=
  (l.reverse.dropWhile rustWs).length

/-- Models `Text::parse` from hjson-lint/src/lexer/text.rs. -/
def textParse (input : List Char) : Option Token :=
  if [quoteS, quoteS, quoteS].isPrefixOf input then
    (findSub [quoteS, quoteS, quoteS] (input.drop 3)).map
      (fun i => ⟨.textMulti, i + 6⟩)
  else if input.head? = some quoteS then
    (findCQ quoteS input).map (fun idx => ⟨.textSingle, idx + 1⟩)
  else if input.head? = some quoteD then
    (findCQ quoteD input).map (fun idx => ⟨.textDouble, idx + 1⟩)
  else
    let eol := (input.findIdx? (· = nlC)).getD input.length
    some ⟨.textUnquoted, trimEndLen (input.take eol)⟩

/-- The recognizer priority list for key mode, from `next_token` in
hjson-lint/src/lexer/iter.rs. -/
def keyRecognizers : List (List Char → Option Token) :=
  [commentParse, symbolParse, whitespaceParse, keyParse, booleanParse,
   nullParse, numberParse]

/-- The recognizer priority list for value mode, from `next_token`. -/
def valueRecognizers : List (List Char → Option Token) :=
  [commentParse, symbolParse, whitespaceParse, booleanParse, nullParse,
   numberParse, textParse]

/-- Models `next_token` from hjson-lint/src/lexer/iter.rs: the first recognizer
in the mode's priority list that matches wins
(`parsers.into_iter().find_map(|p| p(input))`). -/
def lexNext (input : List Char) (mode : TextMode) : Option Token :=
  match mode with
  | .key => keyRecognizers.findSome? (fun p => p input)
  | .value => valueRecognizers.findSome? (fun p => p input)

/-- Mode update after a token, from `Tokens::next`. -/
def nextMode (mode : TextMode) : TokenKind → TextMode
  | .colon => .value
  | .whitespace | .newLine | .lineComment | .hashComment | .blockComment => mode
  | _ => .key

/-- Cursor update over the consumed text, from `Tokens::next`. -/
def advanceCursor (cur : Cursor) (consumed : List Char) : Cursor :=
  { byteOffset := cur.byteOffset + consumed.length
    line := cur.line + consumed.count nlC
    column :=
      match rfindNl consumed with
      | some x => consumed.length - x
      | none => cur.column + consumed.length }

/-- One full run of the `Tokens` iterator (hjson-lint/src/lexer/iter.rs).
Returns the produced spans together with `true` when the run completed
(ended in the terminal Eof span) and `false` when a position matched no
recognizer, after which the Rust iterator keeps returning `None`.  The
fuel bounds the number of iterator steps; `lexer` below supplies enough
for any completed run. -/
def lexAll : Nat → List Char → Cursor → TextMode → List Span × Bool
  | 0, _, _, _ => ([], false)
  | fuel + 1, input, cur, mode =>
    if input.isEmpty then ([⟨.eof, cur, 0⟩], true)
    else
      match lexNext input mode with
      | none => ([], false)
      | some tok =>
        match lexAll fuel (input.drop tok.len)
            (advanceCursor cur (input.take tok.len)) (nextMode mode tok.kind) with
        | (rest, done) => (⟨tok.kind, cur, tok.len⟩ :: rest, done)

/-- Models `Tokens::parse(input)` run to exhaustion, starting in key mode at
cursor (1, 1, 0). -/
def lexer (s : List Char) : List Span × Bool :=
  lexAll (s.length + 1) s Cursor.init .key

/-! ## The CST, from hjson-lint/src/parser/ast.rs -/

/-- Models `Node<T>`: a significant element with leading and trailing trivia. -/
structure Node (T : Type) where
  before : List Span
  inner : T
  after : List Span
deriving Repr

mutual
/-- Models `Value`. -/
inductive Value where
  | map (m : HMap)
  | array (a : HArray)
  | value (s : Span)

/-- Models `Map` (named `HMap` here to avoid clashing with Lean's maps). -/
inductive HMap where
  | mk (openBrace : Node (Option Span)) (members : List (Node MapMember))
      (closeBrace : Node (Option Span))

/-- Models `MapMember`. -/
inductive MapMember where
  | mk (key : Span) (colon : Node Span) (value : Value) (comma : Node (Option Span))

/-- Models `Array`. -/
inductive HArray where
  | mk (openBracket : Node Span) (members : List (Node ArrayMember))
      (closeBracket : Node Span)

/-- Models `ArrayMember`. -/
inductive ArrayMember where
  | mk (value : Value) (comma : Node (Option Span))
end

def HMap.openBrace : HMap → Node (Option Span) | .mk ob _ _ => ob
def HMap.members : HMap → List (Node MapMember) | .mk _ ms _ => ms
def HMap.closeBrace : HMap → Node (Option Span) | .mk _ _ cb => cb
def MapMember.key : MapMember → Span | .mk k _ _ _ => k
def MapMember.colon : MapMember → Node Span | .mk _ c _ _ => c
def MapMember.value : MapMember → Value | .mk _ _ v _ => v
def MapMember.comma : MapMember → Node (Option Span) | .mk _ _ _ c => c
def HArray.openBracket : HArray → Node Span | .mk ob _ _ => ob
def HArray.members : HArray → List (Node ArrayMember) | .mk _ ms _ => ms
def HArray.closeBracket : HArray → Node Span | .mk _ _ cb => cb
def ArrayMember.value : ArrayMember → Value | .mk v _ => v
def ArrayMember.comma : ArrayMember → Node (Option Span) | .mk _ c => c

/-! ## The parser, from hjson-lint/src/parser/mod.rs -/

/-- Models `ParseError`: what was expected and the actual token (whose span holds
its kind and its line/column/byte cursor). -/
structure ParseError where
  expected : String
  got : Span
deriving DecidableEq, Repr

/-- The `Display` impl of `ParseError`. -/
def errorMessage (e : ParseError) : String :=
  toString e.got.start.line ++ ":" ++ toString e.got.start.column ++
    ": expected " ++ e.expected ++ ", got " ++ kindName e.got.kind

/-- Whether an error's description names one of the four mandatory
expectations of the grammar: the colon after a key, the closing brace of
a braced map, the closing bracket of an array, or a value after a colon. -/
def mexp (e : ParseError) : Bool :=
  e.expected = ":" || e.expected = "\x7d" || e.expected = "]" ||
    e.expected = "value"

/-- Result of a parsing step: a value plus remaining tokens, an error, or
a panic (`Option::expect` on an exhausted token iterator). -/
inductive PRes (α : Type) where
  | ok (val : α) (rest : List Span)
  | err (e : ParseError)
  | panicked
deriving Repr

/-- Models `Parser::HIDDEN`. -/
def HIDDEN : List TokenKind :=
  [.whitespace, .newLine, .lineComment, .hashComment, .blockComment]

/-- Models `Parser::HIDDEN_LINE`. -/
def HIDDEN_LINE : List TokenKind :=
  [.whitespace, .lineComment, .hashComment, .blockComment]

/-- Models `Parser::KEY`. -/
def KEY : List TokenKind := [.textSingle, .textDouble, .textUnquoted]

/-- Models `Parser::VALUE`. -/
def VALUE : List TokenKind :=
  [.boolean, .integer, .float, .textSingle, .textDouble, .textMulti,
   .textUnquoted, .null]

/-- Models `Parser::eat`: consume the next token when its kind is listed, except
that a peeked Eof token is returned without being taken off the stream. -/
def eatTk (kinds : List TokenKind) : List Span → Option Span × List Span
  | [] => (none, [])
  | t :: rest =>
    if kinds.contains t.kind then
      if t.kind = .eof then (some t, t :: rest) else (some t, rest)
    else (none, t :: rest)

/-- Models `Parser::skip`: repeatedly eat tokens of the listed kinds.  No call
site ever lists Eof (`HIDDEN`/`HIDDEN_LINE` only), so the non-consuming
Eof reply of `eat` — which would loop forever in the source — never
arises; it is mapped to stopping here. -/
def skipTk (kinds : List TokenKind) : List Span → List Span × List Span
  | [] => ([], [])
  | t :: rest =>
    if kinds.contains t.kind && t.kind ≠ .eof then
      let next := skipTk kinds rest
      (t :: next.1, next.2)
    else ([], t :: rest)

/-- Models `Parser::expect`: take the next token; mismatch is a `ParseError`
describing the expected kind, exhaustion is a panic. -/
def expectTk (kind : TokenKind) : List Span → PRes Span
  | [] => .panicked
  | t :: rest =>
    if t.kind = kind then .ok t rest else .err ⟨kindName kind, t⟩

mutual

/-- Models `Parser::parse_map_members`.  Note: the trivia skipped at the top of
an iteration is dropped when no key follows (the `break` discards
`before`). -/
def parseMapMembersF : Nat → List Span → PRes (List (Node MapMember))
  | 0, _ => .panicked
  | fuel + 1, ts =>
    let sb := skipTk HIDDEN ts
    let ek := eatTk KEY sb.2
    match ek.1 with
    | none => .ok [] ek.2
    | some key =>
      let cb := skipTk HIDDEN ek.2
      match expectTk .colon cb.2 with
      | .err e => .err e
      | .panicked => .panicked
      | .ok colonTok ts2 =>
        let ca := skipTk HIDDEN ts2
        match expectValueF fuel ca.2 with
        | .err e => .err e
        | .panicked => .panicked
        | .ok value ts3 =>
          let cbef := skipTk HIDDEN_LINE ts3
          let ec := eatTk [.comma] cbef.2
          let afterPair : List Span × List Span :=
            match ec.1 with
            | some _ => skipTk HIDDEN_LINE ec.2
            | none => (cbef.1, ec.2)
          let commaBefore : List Span :=
            match ec.1 with
            | some _ => cbef.1
            | none => []
          let et := eatTk [.newLine, .eof] afterPair.2
          let commaAfter := afterPair.1 ++ et.1.toList
          let commaNode : Node (Option Span) := ⟨commaBefore, ec.1, commaAfter⟩
          let aft := skipTk HIDDEN et.2
          let node : Node MapMember :=
            ⟨sb.1, .mk key ⟨cb.1, colonTok, ca.1⟩ value commaNode, aft.1⟩
          match parseMapMembersF fuel aft.2 with
          | .ok restMembers ts4 => .ok (node :: restMembers) ts4
          | .err e => .err e
          | .panicked => .panicked

/-- Models `Parser::parse_value`. -/
def parseValueF : Nat → List Span → PRes (Option Value)
  | 0, _ => .panicked
  | fuel + 1, ts =>
    match parseMapF fuel ts with
    | .err e => .err e
    | .panicked => .panicked
    | .ok (some m) ts2 => .ok (some (.map m)) ts2
    | .ok none _ =>
      match parseArrayF fuel ts with
      | .err e => .err e
      | .panicked => .panicked
      | .ok (some a) ts2 => .ok (some (.array a)) ts2
      | .ok none _ =>
        let ev := eatTk VALUE ts
        .ok (ev.1.map .value) ev.2

/-- Models `Parser::parse_map` (nested maps; both braces mandatory). -/
def parseMapF : Nat → List Span → PRes (Option HMap)
  | 0, _ => .panicked
  | fuel + 1, ts =>
    let eo := eatTk [.openBrace] ts
    match eo.1 with
    | none => .ok none eo.2
    | some ob =>
      let oa := skipTk HIDDEN_LINE eo.2
      match parseMapMembersF fuel oa.2 with
      | .err e => .err e
      | .panicked => .panicked
      | .ok members ts2 =>
        let cbef := skipTk HIDDEN ts2
        match expectTk .closeBrace cbef.2 with
        | .err e => .err e
        | .panicked => .panicked
        | .ok cb ts3 =>
          .ok (some (.mk ⟨[], some ob, oa.1⟩ members ⟨cbef.1, some cb, []⟩)) ts3

/-- The member loop of `Parser::parse_array`; returns the members and the
trivia skipped before the failed value attempt (which the source appends
to the close bracket's `before`). -/
def parseArrayMembersF : Nat → List Span → PRes (List (Node ArrayMember) × List Span)
  | 0, _ => .panicked
  | fuel + 1, ts =>
    let sb := skipTk HIDDEN ts
    match parseValueF fuel sb.2 with
    | .err e => .err e
    | .panicked => .panicked
    | .ok none ts2 => .ok ([], sb.1) ts2
    | .ok (some v) ts2 =>
      let cbef := skipTk HIDDEN_LINE ts2
      let ec := eatTk [.comma] cbef.2
      let afterPair : List Span × List Span :=
        match ec.1 with
        | some _ => skipTk HIDDEN_LINE ec.2
        | none => (cbef.1, ec.2)
      let commaBefore : List Span :=
        match ec.1 with
        | some _ => cbef.1
        | none => []
      let et := eatTk [.newLine, .eof] afterPair.2
      let commaAfter := afterPair.1 ++ et.1.toList
      let node : Node ArrayMember := ⟨sb.1, .mk v ⟨commaBefore, ec.1, commaAfter⟩, []⟩
      match parseArrayMembersF fuel et.2 with
      | .ok rest ts3 => .ok (node :: rest.1, rest.2) ts3
      | .err e => .err e
      | .panicked => .panicked

/-- Models `Parser::parse_array`. -/
def parseArrayF : Nat → List Span → PRes (Option HArray)
  | 0, _ => .panicked
  | fuel + 1, ts =>
    let eo := eatTk [.openBracket] ts
    match eo.1 with
    | none => .ok none eo.2
    | some ob =>
      let oa := skipTk HIDDEN_LINE eo.2
      match parseArrayMembersF fuel oa.2 with
      | .err e => .err e
      | .panicked => .panicked
      | .ok members ts2 =>
        let more := skipTk HIDDEN ts2
        match expectTk .closeBracket more.2 with
        | .err e => .err e
        | .panicked => .panicked
        | .ok cb ts3 =>
          .ok (some (.mk ⟨[], ob, oa.1⟩ members.1 ⟨members.2 ++ more.1, cb, []⟩)) ts3

/-- Models `Parser::expect_value`. -/
def expectValueF : Nat → List Span → PRes Value
  | 0, _ => .panicked
  | fuel + 1, ts =>
    match parseValueF fuel ts with
    | .err e => .err e
    | .panicked => .panicked
    | .ok (some v) ts2 => .ok v ts2
    | .ok none ts2 =>
      match ts2 with
      | [] => .panicked
      | t :: _ => .err ⟨"value", t⟩

end

/-- Models `Parser::parse_root`. -/
def parseRootF (fuel : Nat) (ts : List Span) : PRes HMap :=
  let sb := skipTk HIDDEN ts
  let eo := eatTk [.openBrace] sb.2
  let oa := skipTk HIDDEN_LINE eo.2
  let openBraceNode : Node (Option Span) := ⟨sb.1, eo.1, oa.1⟩
  match parseMapMembersF fuel oa.2 with
  | .err e => .err e
  | .panicked => .panicked
  | .ok members ts2 =>
    let cbef := skipTk HIDDEN ts2
    match eo.1 with
    | some _ =>
      match expectTk .closeBrace cbef.2 with
      | .err e => .err e
      | .panicked => .panicked
      | .ok cb ts3 =>
        let caf := skipTk HIDDEN ts3
        .ok (.mk openBraceNode members ⟨cbef.1, some cb, caf.1⟩) caf.2
    | none =>
      let caf := skipTk HIDDEN cbef.2
      .ok (.mk openBraceNode members ⟨cbef.1, none, caf.1⟩) caf.2

/-- Fuel that always suffices for a full parse of the given tokens. -/
def parseFuel (ts : List Span) : Nat := 8 * ts.length + 16

/-- Models `Parser::parse` applied to an already-lexed stream. -/
def parseTokens (ts : List Span) : PRes HMap := parseRootF (parseFuel ts) ts

/-- Models `Parser::parse(input)`: lex (the parser pulls tokens lazily, so a
stuck lexer simply ends the stream early, which is how `lexer` reports
it) and run the recursive descent. -/
def parseInput (s : List Char) : PRes HMap := parseTokens (lexer s).1

/-! ## Span collection in visitation order (for the round-trip property) -/

/-- Spans of a node around the given inner spans: before, inner, after. -/
def nodeSpans (inner : List Span) (n : Node α) : List Span :=
  n.before ++ inner ++ n.after

/-- Spans of a `Node (Option Span)`. -/
def optNodeSpans (n : Node (Option Span)) : List Span :=
  nodeSpans n.inner.toList n

mutual

/-- All spans stored in a map, in visitation order. -/
def mapSpansF : Nat → HMap → List Span
  | 0, _ => []
  | fuel + 1, m =>
    optNodeSpans m.openBrace ++ membersSpansF fuel m.members ++
      optNodeSpans m.closeBrace

def membersSpansF : Nat → List (Node MapMember) → List Span
  | 0, _ => []
  | _ + 1, [] => []
  | fuel + 1, n :: rest =>
    nodeSpans
      (n.inner.key ::
        (nodeSpans [n.inner.colon.inner] n.inner.colon ++
          valueSpansF fuel n.inner.value ++ optNodeSpans n.inner.comma)) n ++
      membersSpansF fuel rest

def valueSpansF : Nat → Value → List Span
  | 0, _ => []
  | fuel + 1, .map m => mapSpansF fuel m
  | fuel + 1, .array a => arraySpansF fuel a
  | _ + 1, .value s => [s]

def arraySpansF : Nat → HArray → List Span
  | 0, _ => []
  | fuel + 1, a =>
    nodeSpans [a.openBracket.inner] a.openBracket ++
      amembersSpansF fuel a.members ++
      nodeSpans [a.closeBracket.inner] a.closeBracket

def amembersSpansF : Nat → List (Node ArrayMember) → List Span
  | 0, _ => []
  | _ + 1, [] => []
  | fuel + 1, n :: rest =>
    nodeSpans (valueSpansF fuel n.inner.value ++ optNodeSpans n.inner.comma) n ++
      amembersSpansF fuel rest

end

/-- Concatenation of the raw character ranges of every span stored in the
parse result of `s`, in visitation order; `none` when the parse does not
succeed. -/
def parseReconstruct (s : List Char) : Option (List Char) :=
  match parseInput s with
  | .ok m _ =>
    some (((mapSpansF (8 * s.length + 16) m).map
      (fun sp => (s.drop sp.start.byteOffset).take sp.len)).flatten)
  | _ => none

/-! ## The linter, from src/src/linter/mod.rs -/

/-- Models `AllowDeny` from src/src/linter/config.rs. -/
inductive AllowDeny where
  | allow
  | deny
deriving DecidableEq, Repr

/-- Models `AllowDenyRequire` from src/src/linter/config.rs. -/
inductive AllowDenyRequire where
  | require
  | allow
  | deny
deriving DecidableEq, Repr

/-- Models `Config` from src/src/linter/config.rs. -/
structure Config where
  trailingWhitespace : AllowDeny
  rootBraces : AllowDenyRequire
  missingCommas : AllowDeny
  trailingCommas : AllowDenyRequire
  unquotedValues : AllowDenyRequire
  unquotedKeys : AllowDenyRequire
deriving DecidableEq, Repr

/-- Models `Config::default()`: deny only trailing whitespace. -/
def defaultConfig : Config :=
  ⟨.deny, .allow, .allow, .allow, .allow, .allow⟩

/-- Models `Config::strict()`. -/
def strictConfig : Config :=
  ⟨.deny, .require, .deny, .deny, .deny, .deny⟩

/-- The default configuration with `missing_commas` set to Deny. -/
def missingDenyConfig : Config := { defaultConfig with missingCommas := .deny }

/-- The default configuration with `trailing_commas` set to Require. -/
def trailingRequireConfig : Config :=
  { defaultConfig with trailingCommas := .require }

/-- The default configuration with `trailing_commas` set to Deny. -/
def trailingDenyConfig : Config := { defaultConfig with trailingCommas := .deny }

/-- The default configuration with `root_braces` set to Deny. -/
def rootDenyConfig : Config := { defaultConfig with rootBraces := .deny }

/-- The default configuration with `root_braces` set to Require. -/
def rootRequireConfig : Config := { defaultConfig with rootBraces := .require }

/-- Models `LintKind`. -/
inductive LintKind where
  | implicitBraces
  | missingComma
  | trailingComma
  | trailingWhitespace
deriving DecidableEq, Repr

/-- Models `LintSpan`. -/
structure LintSpan where
  start : Cursor
  len : Nat
deriving DecidableEq, Repr

/-- Models `Lint`. -/
structure Lint where
  kind : LintKind
  span : LintSpan
deriving DecidableEq, Repr

/-- The whitespace-scanning closure inside `Linter::lint_trailing_whitespace`:
accumulate consecutive Whitespace tokens, flush the pending span on a
NewLine or Eof token, silently discard it on any other token or at the
end of the list. -/
def twScan (lints : List Lint) (pending : Option LintSpan) : List Span → List Lint
  | [] => lints
  | t :: rest =>
    if t.kind = .whitespace then
      let p : LintSpan :=
        match pending with
        | none => ⟨t.start, t.len⟩
        | some p => ⟨p.start, p.len + t.len⟩
      twScan lints (some p) rest
    else if t.kind = .newLine || t.kind = .eof then
      match pending with
      | some sp => twScan (lints ++ [⟨.trailingWhitespace, sp⟩]) none rest
      | none => twScan lints none rest
    else twScan lints none rest

/-- Models `Linter::lint_trailing_whitespace` on a node's trivia lists. -/
def lintTWNode (cfg : Config) (before after : List Span) (lints : List Lint) :
    List Lint :=
  if cfg.trailingWhitespace = .allow then lints
  else twScan (twScan lints none before) none after

/-- Models `Linter::lint_root_braces`. -/
def lintRootBraces (cfg : Config) (m : HMap) (lints : List Lint) : List Lint :=
  match cfg.rootBraces with
  | .deny =>
    match m.openBrace.inner with
    | some b => lints ++ [⟨.implicitBraces, ⟨b.start, b.len⟩⟩]
    | none => lints
  | .require =>
    if m.openBrace.inner.isNone then
      let cursor : Cursor :=
        match m.openBrace.before.getLast? with
        | none => Cursor.init
        | some sp =>
          let nl := sp.kind = .newLine
          ⟨sp.start.line + (if nl then 1 else 0),
           if nl then 1 else sp.start.column + sp.len,
           sp.start.byteOffset + sp.len⟩
      lints ++ [⟨.implicitBraces, ⟨cursor, 0⟩⟩]
    else lints
  | .allow => lints

/-- Models `Linter::lint_trailing_comma`.  `none` models the panic of the
eagerly evaluated `expect("expected some space where comma is")`. -/
def lintTrailingComma (cfg : Config) (comma : Node (Option Span))
    (lints : List Lint) : Option (List Lint) :=
  if cfg.trailingCommas = .allow then some lints
  else if !(comma.after.any (fun sp => sp.kind = .newLine || sp.kind = .eof)) then
    some lints
  else
    match (comma.before ++ comma.after).head? with
    | none => none
    | some first =>
      match cfg.trailingCommas with
      | .deny =>
        match comma.inner with
        | some node => some (lints ++ [⟨.trailingComma, ⟨node.start, node.len⟩⟩])
        | none => some lints
      | .require =>
        if comma.inner.isNone then
          some (lints ++
            [⟨.trailingComma,
              ⟨((comma.before.head?.map Span.start).getD first.start), 0⟩⟩])
        else some lints
      | .allow => some lints

/-- Models `Linter::lint_missing_comma`.  `none` models the panic of the eagerly
evaluated `expect("expected some space where comma is")`. -/
def lintMissingComma (cfg : Config) (comma : Node (Option Span))
    (lints : List Lint) : Option (List Lint) :=
  if cfg.missingCommas = .allow then some lints
  else
    match (comma.before ++ comma.after).head? with
    | none => none
    | some first =>
      if comma.inner.isNone then
        some (lints ++ [⟨.missingComma, ⟨first.start, 0⟩⟩])
      else some lints

mutual

/-- Models `Linter::lint_map`: close-brace trivia is linted before the members. -/
def lintMapF : Nat → Config → HMap → List Lint → Option (List Lint)
  | 0, _, _, _ => none
  | fuel + 1, cfg, m, lints =>
    let l1 := lintTWNode cfg m.openBrace.before m.openBrace.after lints
    let l2 := lintTWNode cfg m.closeBrace.before m.closeBrace.after l1
    lintMapMembersF fuel cfg m.members l2

/-- The member loop of `lint_map` (the flag marks the final member). -/
def lintMapMembersF : Nat → Config → List (Node MapMember) → List Lint →
    Option (List Lint)
  | 0, _, _, _ => none
  | _ + 1, _, [], lints => some lints
  | fuel + 1, cfg, [n], lints => lintMapMemberF fuel cfg n true lints
  | fuel + 1, cfg, n :: rest, lints =>
    match lintMapMemberF fuel cfg n false lints with
    | none => none
    | some l => lintMapMembersF fuel cfg rest l

/-- Models `Linter::lint_map_member`. -/
def lintMapMemberF : Nat → Config → Node MapMember → Bool → List Lint →
    Option (List Lint)
  | 0, _, _, _, _ => none
  | fuel + 1, cfg, n, last, lints =>
    let l1 := lintTWNode cfg n.before n.after lints
    let l2 := lintTWNode cfg n.inner.comma.before n.inner.comma.after l1
    match lintValueF fuel cfg n.inner.value l2 with
    | none => none
    | some l3 =>
      if last then lintTrailingComma cfg n.inner.comma l3
      else lintMissingComma cfg n.inner.comma l3

/-- Models `Linter::lint_array`. -/
def lintArrayF : Nat → Config → HArray → List Lint → Option (List Lint)
  | 0, _, _, _ => none
  | fuel + 1, cfg, a, lints => lintArrayMembersF fuel cfg a.members lints

/-- The member loop of `lint_array`. -/
def lintArrayMembersF : Nat → Config → List (Node ArrayMember) → List Lint →
    Option (List Lint)
  | 0, _, _, _ => none
  | _ + 1, _, [], lints => some lints
  | fuel + 1, cfg, [n], lints => lintArrayMemberF fuel cfg n true lints
  | fuel + 1, cfg, n :: rest, lints =>
    match lintArrayMemberF fuel cfg n false lints with
    | none => none
    | some l => lintArrayMembersF fuel cfg rest l

/-- Models `Linter::lint_array_member`. -/
def lintArrayMemberF : Nat → Config → Node ArrayMember → Bool → List Lint →
    Option (List Lint)
  | 0, _, _, _, _ => none
  | fuel + 1, cfg, n, last, lints =>
    let l1 := lintTWNode cfg n.before n.after lints
    let l2 := lintTWNode cfg n.inner.comma.before n.inner.comma.after l1
    match lintValueF fuel cfg n.inner.value l2 with
    | none => none
    | some l3 =>
      if last then lintTrailingComma cfg n.inner.comma l3
      else lintMissingComma cfg n.inner.comma l3

/-- Models `Linter::lint_value`. -/
def lintValueF : Nat → Config → Value → List Lint → Option (List Lint)
  | 0, _, _, _ => none
  | fuel + 1, cfg, .map m, lints => lintMapF fuel cfg m lints
  | fuel + 1, cfg, .array a, lints => lintArrayF fuel cfg a lints
  | _ + 1, _, .value _, lints => some lints

end

/-- Models `Linter::lint_root`. -/
def lintRootF (fuel : Nat) (cfg : Config) (m : HMap) : Option (List Lint) :=
  lintMapF fuel cfg m (lintRootBraces cfg m [])

/-- Outcome of `Linter::lint`: a parse error, a panic, or the lint list. -/
inductive LintOutcome where
  | parseErr (e : ParseError)
  | panicked
  | ok (lints : List Lint)
deriving DecidableEq, Repr

/-- Models `Linter::lint(config, input)`: parse, then walk the tree. -/
def lintRun (cfg : Config) (s : List Char) : LintOutcome :=
  match parseInput s with
  | .err e => .parseErr e
  | .panicked => .panicked
  | .ok m _ =>
    match lintRootF (8 * s.length + 16) cfg m with
    | none => .panicked
    | some l => .ok l

/-- Whether a lint list is in document order by start byte offset. -/
def lintsOrdered : List Lint → Bool
  | [] => true
  | [_] => true
  | a :: b :: rest =>
    decide (a.span.start.byteOffset ≤ b.span.start.byteOffset) &&
      lintsOrdered (b :: rest)

/-- Offset-contiguity and single-final-Eof check for a lexed span list:
offsets start at `ofs` and advance by each span's length, every span
before the last has a kind other than Eof, and the list ends with a
zero-length Eof span positioned at `total` (so the spans cover the
offsets `ofs` to `total` exactly once). -/
def coverOk (total : Nat) : Nat → List Span → Bool
  | _, [] => false
  | ofs, [sp] =>
    sp.kind = .eof && sp.len = 0 && sp.start.byteOffset = ofs && ofs = total
  | ofs, sp :: rest =>
    sp.kind ≠ .eof && sp.start.byteOffset = ofs && coverOk total (ofs + sp.len) rest

/-! ## Helper lemmas -/

theorem head?_pos {α : Type} {l : List α} {c : α} (h : l.head? = some c) :
    0 < l.length := by
  cases l <;> simp_all

theorem findIdx_getD_le (l : List Char) (p : Char → Bool) :
    (l.findIdx? p).getD l.length ≤ l.length := by
  cases h : l.findIdx? p with
  | none => simp
  | some i =>
    have := List.findIdx?_eq_some_iff_getElem.mp h
    simp only [Option.getD_some]
    exact Nat.le_of_lt this.1

theorem findSub_le {pat l : List Char} {i : Nat} (hne : pat ≠ [])
    (h : findSub pat l = some i) : i + pat.length ≤ l.length := by
  induction l generalizing i with
  | nil =>
    unfold findSub at h
    split at h
    · next hp =>
      exfalso
      cases pat with
      | nil => exact hne rfl
      | cons a t => simp [List.isPrefixOf] at hp
    · exact Option.noConfusion h
  | cons c rest ih =>
    unfold findSub at h
    split at h
    · next hp =>
      have hp2 : pat <+: c :: rest := List.isPrefixOf_iff_prefix.mp hp
      have := hp2.length_le
      simp only [Option.some.injEq] at h
      omega
    · next hp =>
      cases hmap : findSub pat rest with
      | none => rw [hmap] at h; simp at h
      | some j =>
        rw [hmap] at h
        simp only [Option.map_some', Option.some.injEq] at h
        have := ih hmap
        simp only [List.length_cons]
        omega

theorem findCQAux_lt {q prev : Char} {i j : Nat} {l : List Char}
    (h : findCQAux q prev i l = some j) : j < i + l.length := by
  induction l generalizing prev i with
  | nil => simp [findCQAux] at h
  | cons c cs ih =>
    unfold findCQAux at h
    split at h
    · simp only [Option.some.injEq] at h
      simp only [List.length_cons]
      omega
    · have := ih h
      simp only [List.length_cons]
      omega

theorem findCQ_lt {q : Char} {l : List Char} {i : Nat}
    (h : findCQ q l = some i) : i < l.length := by
  cases l with
  | nil => simp [findCQ] at h
  | cons c0 rest =>
    have hb : i < 1 + rest.length := findCQAux_lt h
    simp only [List.length_cons]
    omega

theorem isPrefixOf_length_le {pat l : List Char}
    (h : pat.isPrefixOf l = true) : pat.length ≤ l.length :=
  (List.isPrefixOf_iff_prefix.mp h).length_le

theorem trimEndLen_le (l : List Char) : trimEndLen l ≤ l.length := by
  unfold trimEndLen
  have hsub : List.Sublist (l.reverse.dropWhile rustWs) l.reverse := List.dropWhile_sublist _
  have h1 := hsub.length_le
  simpa using h1

/-! Length bounds for each recognizer: a matched token never claims more
characters than the input holds (the Rust code slices `&input[len..]`). -/

theorem commentParse_le {s : List Char} {t : Token}
    (h : commentParse s = some t) : t.len ≤ s.length := by
  unfold commentParse at h
  split at h
  · simp only [Option.some.injEq] at h
    subst h
    exact findIdx_getD_le s _
  · split at h
    · next hcond =>
      cases hf : findSub [starC, slashC] (s.drop 2) with
      | none => rw [hf] at h; exact Option.noConfusion h
      | some i =>
        rw [hf] at h
        simp only [Option.map_some', Option.some.injEq] at h
        subst h
        have hb := findSub_le (show [starC, slashC] ≠ [] by simp) hf
        have hs2 : 2 ≤ s.length := by
          have hlen : (s.take 2).length = 2 := by rw [hcond]; rfl
          simp only [List.length_take] at hlen
          omega
        simp only [List.length_cons, List.length_nil, List.length_drop] at hb
        show i + 4 ≤ s.length
        omega
    · split at h
      · simp only [Option.some.injEq] at h
        subst h
        exact findIdx_getD_le s _
      · exact Option.noConfusion h

theorem symbolParse_le {s : List Char} {t : Token}
    (h : symbolParse s = some t) : t.len ≤ s.length := by
  unfold symbolParse at h
  split at h
  · exact Option.noConfusion h
  · next c hc =>
    have hpos : 0 < s.length := head?_pos hc
    repeat' split at h
    all_goals first
      | exact Option.noConfusion h
      | (simp only [Option.some.injEq] at h; subst h; exact hpos)

theorem whitespaceParse_le {s : List Char} {t : Token}
    (h : whitespaceParse s = some t) : t.len ≤ s.length := by
  unfold whitespaceParse at h
  split at h
  · next hh =>
    simp only [Option.some.injEq] at h
    subst h
    exact head?_pos hh
  · split at h
    · exact Option.noConfusion h
    · next len hlen =>
      simp only [Option.some.injEq] at h
      subst h
      exact findIdx_getD_le s _

theorem keyParse_le {s : List Char} {t : Token}
    (h : keyParse s = some t) : t.len ≤ s.length := by
  unfold keyParse at h
  split at h
  · cases hf : findCQ quoteS s with
    | none => rw [hf] at h; simp at h
    | some i =>
      rw [hf] at h
      simp only [Option.map_some', Option.some.injEq] at h
      subst h
      exact findCQ_lt hf
  · split at h
    · cases hf : findCQ quoteD s with
      | none => rw [hf] at h; simp at h
      | some i =>
        rw [hf] at h
        simp only [Option.map_some', Option.some.injEq] at h
        subst h
        exact findCQ_lt hf
    · simp only [Option.some.injEq] at h
      subst h
      exact findIdx_getD_le s _

theorem booleanParse_le {s : List Char} {t : Token}
    (h : booleanParse s = some t) : t.len ≤ s.length := by
  unfold booleanParse at h
  split at h
  · next hp =>
    simp only [Option.some.injEq] at h
    subst h
    exact isPrefixOf_length_le hp
  · split at h
    · next hp =>
      simp only [Option.some.injEq] at h
      subst h
      exact isPrefixOf_length_le hp
    · exact Option.noConfusion h

theorem nullParse_le {s : List Char} {t : Token}
    (h : nullParse s = some t) : t.len ≤ s.length := by
  unfold nullParse at h
  split at h
  · next hp =>
    simp only [Option.some.injEq] at h
    subst h
    exact isPrefixOf_length_le hp
  · exact Option.noConfusion h

theorem textParse_le {s : List Char} {t : Token}
    (h : textParse s = some t) : t.len ≤ s.length := by
  unfold textParse at h
  split at h
  · next hp =>
    cases hf : findSub [quoteS, quoteS, quoteS] (s.drop 3) with
    | none => rw [hf] at h; simp at h
    | some i =>
      rw [hf] at h
      simp only [Option.map_some', Option.some.injEq] at h
      subst h
      have hb := findSub_le (show [quoteS, quoteS, quoteS] ≠ [] by simp) hf
      have h3 : 3 ≤ s.length := isPrefixOf_length_le hp
      simp only [List.length_cons, List.length_nil, List.length_drop] at hb
      show i + 6 ≤ s.length
      omega
  · split at h
    · cases hf : findCQ quoteS s with
      | none => rw [hf] at h; simp at h
      | some i =>
        rw [hf] at h
        simp only [Option.map_some', Option.some.injEq] at h
        subst h
        exact findCQ_lt hf
    · split at h
      · cases hf : findCQ quoteD s with
        | none => rw [hf] at h; simp at h
        | some i =>
          rw [hf] at h
          simp only [Option.map_some', Option.some.injEq] at h
          subst h
          exact findCQ_lt hf
      · simp only [Option.some.injEq] at h
        subst h
        show trimEndLen _ ≤ _
        refine le_trans (trimEndLen_le _) ?_
        rw [List.length_take]
        exact Nat.min_le_right _ _

theorem numIntStage_spec {l1 l2 : Nat} {i1 i2 : List Char}
    (h : numIntStage l1 i1 = some (l2, i2)) :
    ∃ d, l2 = l1 + d ∧ i2 = i1.drop d ∧ d ≤ i1.length := by
  unfold numIntStage at h
  split at h
  · next hz =>
    simp only [Option.some.injEq, Prod.mk.injEq] at h
    exact ⟨1, h.1.symm, h.2.symm, head?_pos hz⟩
  · split at h
    · exact Option.noConfusion h
    · next x hx =>
      simp only [Option.some.injEq, Prod.mk.injEq] at h
      exact ⟨_, h.1.symm, h.2.symm, findIdx_getD_le i1 _⟩

theorem numFracStage_spec {l2 : Nat} {i2 : List Char} {k : TokenKind}
    {l3 : Nat} {i3 : List Char} (h : numFracStage l2 i2 = (k, l3, i3)) :
    ∃ d, l3 = l2 + d ∧ i3 = i2.drop d ∧ d ≤ i2.length := by
  unfold numFracStage at h
  split at h
  · next hd =>
    split at h
    · next hpos =>
      simp only [Prod.mk.injEq] at h
      obtain ⟨hk, hl, hr⟩ := h
      have hb := findIdx_getD_le (i2.drop 1) (fun c => !asciiDigit c)
      have hp := head?_pos hd
      generalize hG : ((i2.drop 1).findIdx? (fun c => !asciiDigit c)).getD
        (i2.drop 1).length = nd at hl hr hb
      refine ⟨1 + nd, by omega, hr.symm, ?_⟩
      simp only [List.length_drop] at hb
      omega
    · simp only [Prod.mk.injEq] at h
      obtain ⟨hk, hl, hr⟩ := h
      exact ⟨0, by omega, hr.symm, by omega⟩
  · simp only [Prod.mk.injEq] at h
    obtain ⟨hk, hl, hr⟩ := h
    exact ⟨0, by omega, hr.symm, by omega⟩

theorem expLenOf_le {i3 : List Char} (hp : 0 < i3.length) :
    expLenOf i3 ≤ i3.length := by
  unfold expLenOf
  split
  · next hsign =>
    have hp2 : 0 < (i3.drop 1).length := by
      rcases Bool.or_eq_true_iff.mp hsign with h1 | h1 <;>
        exact head?_pos (of_decide_eq_true h1)
    simp only [List.length_drop] at hp2
    omega
  · omega

theorem numExpStage_spec {k3 : TokenKind} {l3 : Nat} {i3 : List Char}
    {k4 : TokenKind} {l4 : Nat} {i4 : List Char}
    (h : numExpStage k3 l3 i3 = (k4, l4, i4)) :
    ∃ d, l4 = l3 + d ∧ i4 = i3.drop d ∧ d ≤ i3.length := by
  unfold numExpStage at h
  split at h
  · next he =>
    have hp1 : 0 < i3.length := by
      rcases Bool.or_eq_true_iff.mp he with h1 | h1 <;>
        exact head?_pos (of_decide_eq_true h1)
    split at h
    · next hpos =>
      simp only [Prod.mk.injEq] at h
      obtain ⟨hk, hl, hr⟩ := h
      have hb := findIdx_getD_le (i3.drop (expLenOf i3)) (fun c => !asciiDigit c)
      have hexplen := expLenOf_le hp1
      generalize hG : ((i3.drop (expLenOf i3)).findIdx? (fun c => !asciiDigit c)).getD
        (i3.drop (expLenOf i3)).length = nd at hl hr hb
      generalize hE : expLenOf i3 = el at hl hr hb hexplen
      refine ⟨el + nd, by omega, hr.symm, ?_⟩
      simp only [List.length_drop] at hb
      omega
    · simp only [Prod.mk.injEq] at h
      obtain ⟨hk, hl, hr⟩ := h
      exact ⟨0, by omega, hr.symm, by omega⟩
  · simp only [Prod.mk.injEq] at h
    obtain ⟨hk, hl, hr⟩ := h
    exact ⟨0, by omega, hr.symm, by omega⟩

theorem numberScanCore_spec {l1 : Nat} {i1 : List Char} {k : TokenKind}
    {len : Nat} {rest : List Char}
    (h : numberScanCore l1 i1 = some (k, len, rest)) :
    ∃ d, len = l1 + d ∧ rest = i1.drop d ∧ d ≤ i1.length := by
  unfold numberScanCore at h
  split at h
  · exact Option.noConfusion h
  · next l2 i2 heq =>
    obtain ⟨d2, hl2, hi2, hd2⟩ := numIntStage_spec heq
    rcases hfrac : numFracStage l2 i2 with ⟨k3, l3, i3⟩
    rw [hfrac] at h
    change some (numExpStage k3 l3 i3) = some (k, len, rest) at h
    simp only [Option.some.injEq] at h
    obtain ⟨d3, hl3, hi3, hd3⟩ := numFracStage_spec hfrac
    obtain ⟨d4, hl4, hi4, hd4⟩ := numExpStage_spec h
    have hi2len : i2.length = i1.length - d2 := by
      rw [hi2]
      simp only [List.length_drop]
    have hi3len : i3.length = i1.length - d2 - d3 := by
      rw [hi3, hi2]
      simp only [List.length_drop]
    refine ⟨d2 + d3 + d4, by omega, ?_, by omega⟩
    rw [hi4, hi3, hi2, List.drop_drop, List.drop_drop]
    congr 1
    omega

theorem numberScan_inv {s : List Char} {k : TokenKind} {len : Nat}
    {rest : List Char} (h : numberScan s = some (k, len, rest)) :
    rest = s.drop len ∧ len ≤ s.length := by
  unfold numberScan at h
  split at h
  · next hm =>
    obtain ⟨d, hlen, hrest, hd⟩ := numberScanCore_spec h
    have hp := head?_pos hm
    constructor
    · rw [hrest, List.drop_drop]
      congr 1
      omega
    · simp only [List.length_drop] at hd
      omega
  · obtain ⟨d, hlen, hrest, hd⟩ := numberScanCore_spec h
    constructor
    · rw [hrest]
      congr 1
      omega
    · omega

/-- Models `Number::parse` only accepts a numeric prefix whose following text,
after skipping whitespace other than newlines, starts with EOF, a newline
or one of the six punctuation characters; the matched length never
exceeds the input. -/
theorem numberParse_term {s : List Char} {t : Token}
    (h : numberParse s = some t) :
    numberTerminated (s.drop t.len) = true ∧ t.len ≤ s.length := by
  unfold numberParse at h
  split at h
  · exact Option.noConfusion h
  · next kind len rest heq =>
    split at h
    · next hterm =>
      simp only [Option.some.injEq] at h
      subst h
      obtain ⟨hrest, hlen⟩ := numberScan_inv heq
      exact ⟨hrest ▸ hterm, hlen⟩
    · exact Option.noConfusion h

theorem numberParse_le {s : List Char} {t : Token}
    (h : numberParse s = some t) : t.len ≤ s.length :=
  (numberParse_term h).2

theorem numFracStage_kind {l2 : Nat} {i2 : List Char} {k : TokenKind}
    {l3 : Nat} {i3 : List Char} (h : numFracStage l2 i2 = (k, l3, i3)) :
    k = .float ∨ k = .integer := by
  unfold numFracStage at h
  split at h
  · split at h
    · exact Or.inl (congrArg Prod.fst h).symm
    · exact Or.inr (congrArg Prod.fst h).symm
  · exact Or.inr (congrArg Prod.fst h).symm

theorem numExpStage_kind {k3 : TokenKind} {l3 : Nat} {i3 : List Char}
    {k4 : TokenKind} {l4 : Nat} {i4 : List Char}
    (h : numExpStage k3 l3 i3 = (k4, l4, i4)) : k4 = .float ∨ k4 = k3 := by
  unfold numExpStage at h
  split at h
  · split at h
    · exact Or.inl (congrArg Prod.fst h).symm
    · exact Or.inr (congrArg Prod.fst h).symm
  · exact Or.inr (congrArg Prod.fst h).symm

theorem numberParse_kind {s : List Char} {t : Token}
    (h : numberParse s = some t) : t.kind = .integer ∨ t.kind = .float := by
  unfold numberParse at h
  split at h
  · exact Option.noConfusion h
  · next k len rest hscan =>
    split at h
    · simp only [Option.some.injEq] at h
      subst h
      show k = .integer ∨ k = .float
      unfold numberScan at hscan
      have core : ∀ l0 i0, numberScanCore l0 i0 = some (k, len, rest) →
          k = .integer ∨ k = .float := by
        intro l0 i0 hc
        unfold numberScanCore at hc
        split at hc
        · exact Option.noConfusion hc
        · next l2 i2 heq =>
          rcases hfrac : numFracStage l2 i2 with ⟨k3, l3, i3⟩
          rw [hfrac] at hc
          change some (numExpStage k3 l3 i3) = some (k, len, rest) at hc
          simp only [Option.some.injEq] at hc
          rcases numExpStage_kind hc with hk | hk
          · exact Or.inr hk
          · rcases numFracStage_kind hfrac with h3 | h3
            · exact Or.inr (hk.trans h3)
            · exact Or.inl (hk.trans h3)
      split at hscan
      · exact core _ _ hscan
      · exact core _ _ hscan
    · exact Option.noConfusion h

/-! Kind facts: no recognizer ever yields the Eof kind. -/

theorem commentParse_ne_eof {s : List Char} {t : Token}
    (h : commentParse s = some t) : t.kind ≠ .eof := by
  unfold commentParse at h
  split at h
  · simp only [Option.some.injEq] at h
    subst h
    simp
  · split at h
    · rcases Option.map_eq_some'.mp h with ⟨i, _, rfl⟩
      simp
    · split at h
      · simp only [Option.some.injEq] at h
        subst h
        simp
      · exact Option.noConfusion h

theorem symbolParse_ne_eof {s : List Char} {t : Token}
    (h : symbolParse s = some t) : t.kind ≠ .eof := by
  unfold symbolParse at h
  split at h
  · exact Option.noConfusion h
  · repeat' split at h
    all_goals first
      | exact Option.noConfusion h
      | (simp only [Option.some.injEq] at h; subst h; simp)

theorem whitespaceParse_ne_eof {s : List Char} {t : Token}
    (h : whitespaceParse s = some t) : t.kind ≠ .eof := by
  unfold whitespaceParse at h
  split at h
  · simp only [Option.some.injEq] at h
    subst h
    simp
  · split at h
    · exact Option.noConfusion h
    · simp only [Option.some.injEq] at h
      subst h
      simp

theorem keyParse_ne_eof {s : List Char} {t : Token}
    (h : keyParse s = some t) : t.kind ≠ .eof := by
  unfold keyParse at h
  split at h
  · rcases Option.map_eq_some'.mp h with ⟨i, _, rfl⟩
    simp
  · split at h
    · rcases Option.map_eq_some'.mp h with ⟨i, _, rfl⟩
      simp
    · simp only [Option.some.injEq] at h
      subst h
      simp

theorem booleanParse_ne_eof {s : List Char} {t : Token}
    (h : booleanParse s = some t) : t.kind ≠ .eof := by
  unfold booleanParse at h
  repeat' split at h
  all_goals first
    | exact Option.noConfusion h
    | (simp only [Option.some.injEq] at h; subst h; simp)

theorem nullParse_ne_eof {s : List Char} {t : Token}
    (h : nullParse s = some t) : t.kind ≠ .eof := by
  unfold nullParse at h
  split at h
  · simp only [Option.some.injEq] at h
    subst h
    simp
  · exact Option.noConfusion h

theorem numberParse_ne_eof {s : List Char} {t : Token}
    (h : numberParse s = some t) : t.kind ≠ .eof := by
  rcases numberParse_kind h with hk | hk <;> simp [hk]

theorem textParse_ne_eof {s : List Char} {t : Token}
    (h : textParse s = some t) : t.kind ≠ .eof := by
  unfold textParse at h
  split at h
  · rcases Option.map_eq_some'.mp h with ⟨i, _, rfl⟩
    simp
  · split at h
    · rcases Option.map_eq_some'.mp h with ⟨i, _, rfl⟩
      simp
    · split at h
      · rcases Option.map_eq_some'.mp h with ⟨i, _, rfl⟩
        simp
      · simp only [Option.some.injEq] at h
        subst h
        simp

/-- A property holding for every possible output of every recognizer in a
list also holds for the output of their `findSome?` dispatch. -/
theorem findSome?_prop (P : Token → Prop)
    {ps : List (List Char → Option Token)} {s : List Char} {t : Token}
    (h : ps.findSome? (fun p => p s) = some t)
    (hall : ∀ p ∈ ps, ∀ u, p s = some u → P u) : P t := by
  induction ps with
  | nil => simp at h
  | cons p rest ih =>
    rw [List.findSome?_cons] at h
    cases hp : p s with
    | some u =>
      rw [hp] at h
      simp only [Option.some.injEq] at h
      subst h
      exact hall p (List.mem_cons_self p rest) u hp
    | none =>
      rw [hp] at h
      exact ih h (fun q hq => hall q (List.mem_cons_of_mem _ hq))

theorem lexNext_ne_eof {s : List Char} {mode : TextMode} {t : Token}
    (h : lexNext s mode = some t) : t.kind ≠ .eof := by
  cases mode
  · have h2 : keyRecognizers.findSome? (fun p => p s) = some t := h
    refine findSome?_prop (fun u => u.kind ≠ TokenKind.eof) h2 ?_
    intro p hp u hu
    simp only [keyRecognizers, List.mem_cons, List.not_mem_nil, or_false] at hp
    rcases hp with rfl | rfl | rfl | rfl | rfl | rfl | rfl
    · exact commentParse_ne_eof hu
    · exact symbolParse_ne_eof hu
    · exact whitespaceParse_ne_eof hu
    · exact keyParse_ne_eof hu
    · exact booleanParse_ne_eof hu
    · exact nullParse_ne_eof hu
    · exact numberParse_ne_eof hu
  · have h2 : valueRecognizers.findSome? (fun p => p s) = some t := h
    refine findSome?_prop (fun u => u.kind ≠ TokenKind.eof) h2 ?_
    intro p hp u hu
    simp only [valueRecognizers, List.mem_cons, List.not_mem_nil, or_false] at hp
    rcases hp with rfl | rfl | rfl | rfl | rfl | rfl | rfl
    · exact commentParse_ne_eof hu
    · exact symbolParse_ne_eof hu
    · exact whitespaceParse_ne_eof hu
    · exact booleanParse_ne_eof hu
    · exact nullParse_ne_eof hu
    · exact numberParse_ne_eof hu
    · exact textParse_ne_eof hu

theorem lexNext_le {s : List Char} {mode : TextMode} {t : Token}
    (h : lexNext s mode = some t) : t.len ≤ s.length := by
  cases mode
  · have h2 : keyRecognizers.findSome? (fun p => p s) = some t := h
    refine findSome?_prop (fun u => u.len ≤ s.length) h2 ?_
    intro p hp u hu
    simp only [keyRecognizers, List.mem_cons, List.not_mem_nil, or_false] at hp
    rcases hp with rfl | rfl | rfl | rfl | rfl | rfl | rfl
    · exact commentParse_le hu
    · exact symbolParse_le hu
    · exact whitespaceParse_le hu
    · exact keyParse_le hu
    · exact booleanParse_le hu
    · exact nullParse_le hu
    · exact numberParse_le hu
  · have h2 : valueRecognizers.findSome? (fun p => p s) = some t := h
    refine findSome?_prop (fun u => u.len ≤ s.length) h2 ?_
    intro p hp u hu
    simp only [valueRecognizers, List.mem_cons, List.not_mem_nil, or_false] at hp
    rcases hp with rfl | rfl | rfl | rfl | rfl | rfl | rfl
    · exact commentParse_le hu
    · exact symbolParse_le hu
    · exact whitespaceParse_le hu
    · exact booleanParse_le hu
    · exact nullParse_le hu
    · exact numberParse_le hu
    · exact textParse_le hu

/-- Offset contiguity, full coverage and single-final-Eof for any
completed run of the `Tokens` iterator, generalized over the starting
state: the spans cover the offsets from the cursor's position to the end
of the remaining input, each non-final span has a non-Eof kind, and the
run ends with a zero-length Eof span at the end offset. -/
theorem lexAll_cover : ∀ (fuel : Nat) (input : List Char) (cur : Cursor)
    (mode : TextMode) (spans : List Span),
    lexAll fuel input cur mode = (spans, true) →
    coverOk (cur.byteOffset + input.length) cur.byteOffset spans = true := by
  intro fuel
  induction fuel with
  | zero =>
    intro input cur mode spans h
    simp [lexAll] at h
  | succ fuel ih =>
    intro input cur mode spans h
    unfold lexAll at h
    split at h
    · next hemp =>
      simp only [Prod.mk.injEq] at h
      obtain ⟨hsp, -⟩ := h
      subst hsp
      have hlen : input.length = 0 := by
        rw [List.isEmpty_iff] at hemp
        simp [hemp]
      rw [hlen]
      simp [coverOk]
    · split at h
      · simp at h
      · next tok htok =>
        split at h
        next rest done hrec =>
        simp only [Prod.mk.injEq] at h
        obtain ⟨hsp, hdone⟩ := h
        subst hsp
        subst hdone
        have hle := lexNext_le htok
        have hne2 := lexNext_ne_eof htok
        have htake : (input.take tok.len).length = tok.len := by
          rw [List.length_take]
          exact Nat.min_eq_left hle
        have hcur : (advanceCursor cur (input.take tok.len)).byteOffset =
            cur.byteOffset + tok.len := by
          simp [advanceCursor, htake]
        have ihh := ih (input.drop tok.len)
          (advanceCursor cur (input.take tok.len)) (nextMode mode tok.kind)
          rest hrec
        rw [hcur] at ihh
        have hdlen : (input.drop tok.len).length = input.length - tok.len := by
          simp
        rw [hdlen] at ihh
        have htot : cur.byteOffset + tok.len + (input.length - tok.len) =
            cur.byteOffset + input.length := by omega
        rw [htot] at ihh
        cases rest with
        | nil => simp [coverOk] at ihh
        | cons r rs =>
          simp only [coverOk]
          simp [hne2, ihh]

theorem expectTk_err {k : TokenKind} {ts : List Span} {e : ParseError}
    (h : expectTk k ts = .err e) : e.expected = kindName k := by
  unfold expectTk at h
  repeat' split at h
  all_goals
    first
      | exact PRes.noConfusion h
      | (injection h with h1; subst h1; rfl)

theorem mexp_expect {k : TokenKind} {ts : List Span} {e : ParseError}
    (hk : k = .colon ∨ k = .closeBrace ∨ k = .closeBracket)
    (h : expectTk k ts = .err e) : mexp e = true := by
  have hE := expectTk_err h
  rcases hk with rfl | rfl | rfl <;> simp [mexp, hE, kindName]

/-- Every error produced anywhere in the recursive descent carries one of
the four mandatory expectations. -/
theorem parseErrAll : ∀ fuel : Nat,
    (∀ ts e, parseMapMembersF fuel ts = .err e → mexp e = true) ∧
    (∀ ts e, parseValueF fuel ts = .err e → mexp e = true) ∧
    (∀ ts e, parseMapF fuel ts = .err e → mexp e = true) ∧
    (∀ ts e, parseArrayMembersF fuel ts = .err e → mexp e = true) ∧
    (∀ ts e, parseArrayF fuel ts = .err e → mexp e = true) ∧
    (∀ ts e, expectValueF fuel ts = .err e → mexp e = true) := by
  intro fuel
  induction fuel with
  | zero =>
    refine ⟨?_, ?_, ?_, ?_, ?_, ?_⟩ <;> intro ts e h <;>
      simp only [parseMapMembersF, parseValueF, parseMapF,
        parseArrayMembersF, parseArrayF, expectValueF] at h <;>
      exact PRes.noConfusion h
  | succ fuel ih =>
    obtain ⟨ihMM, ihV, ihM, ihAM, ihA, ihEV⟩ := ih
    refine ⟨?_, ?_, ?_, ?_, ?_, ?_⟩ <;> intro ts e h
    · simp only [parseMapMembersF] at h
      repeat' split at h
      all_goals
        first
          | exact PRes.noConfusion h
          | (injection h with h1; subst h1;
             first
               | exact mexp_expect (Or.inl rfl) (by assumption)
               | exact mexp_expect (Or.inr (Or.inl rfl)) (by assumption)
               | exact mexp_expect (Or.inr (Or.inr rfl)) (by assumption)
               | exact ihMM _ _ (by assumption)
               | exact ihV _ _ (by assumption)
               | exact ihM _ _ (by assumption)
               | exact ihAM _ _ (by assumption)
               | exact ihA _ _ (by assumption)
               | exact ihEV _ _ (by assumption)
               | rfl)
    · simp only [parseValueF] at h
      repeat' split at h
      all_goals
        first
          | exact PRes.noConfusion h
          | (injection h with h1; subst h1;
             first
               | exact mexp_expect (Or.inl rfl) (by assumption)
               | exact mexp_expect (Or.inr (Or.inl rfl)) (by assumption)
               | exact mexp_expect (Or.inr (Or.inr rfl)) (by assumption)
               | exact ihMM _ _ (by assumption)
               | exact ihV _ _ (by assumption)
               | exact ihM _ _ (by assumption)
               | exact ihAM _ _ (by assumption)
               | exact ihA _ _ (by assumption)
               | exact ihEV _ _ (by assumption)
               | rfl)
    · simp only [parseMapF] at h
      repeat' split at h
      all_goals
        first
          | exact PRes.noConfusion h
          | (injection h with h1; subst h1;
             first
               | exact mexp_expect (Or.inl rfl) (by assumption)
               | exact mexp_expect (Or.inr (Or.inl rfl)) (by assumption)
               | exact mexp_expect (Or.inr (Or.inr rfl)) (by assumption)
               | exact ihMM _ _ (by assumption)
               | exact ihV _ _ (by assumption)
               | exact ihM _ _ (by assumption)
               | exact ihAM _ _ (by assumption)
               | exact ihA _ _ (by assumption)
               | exact ihEV _ _ (by assumption)
               | rfl)
    · simp only [parseArrayMembersF] at h
      repeat' split at h
      all_goals
        first
          | exact PRes.noConfusion h
          | (injection h with h1; subst h1;
             first
               | exact mexp_expect (Or.inl rfl) (by assumption)
               | exact mexp_expect (Or.inr (Or.inl rfl)) (by assumption)
               | exact mexp_expect (Or.inr (Or.inr rfl)) (by assumption)
               | exact ihMM _ _ (by assumption)
               | exact ihV _ _ (by assumption)
               | exact ihM _ _ (by assumption)
               | exact ihAM _ _ (by assumption)
               | exact ihA _ _ (by assumption)
               | exact ihEV _ _ (by assumption)
               | rfl)
    · simp only [parseArrayF] at h
      repeat' split at h
      all_goals
        first
          | exact PRes.noConfusion h
          | (injection h with h1; subst h1;
             first
               | exact mexp_expect (Or.inl rfl) (by assumption)
               | exact mexp_expect (Or.inr (Or.inl rfl)) (by assumption)
               | exact mexp_expect (Or.inr (Or.inr rfl)) (by assumption)
               | exact ihMM _ _ (by assumption)
               | exact ihV _ _ (by assumption)
               | exact ihM _ _ (by assumption)
               | exact ihAM _ _ (by assumption)
               | exact ihA _ _ (by assumption)
               | exact ihEV _ _ (by assumption)
               | rfl)
    · simp only [expectValueF] at h
      repeat' split at h
      all_goals
        first
          | exact PRes.noConfusion h
          | (injection h with h1; subst h1;
             first
               | exact mexp_expect (Or.inl rfl) (by assumption)
               | exact mexp_expect (Or.inr (Or.inl rfl)) (by assumption)
               | exact mexp_expect (Or.inr (Or.inr rfl)) (by assumption)
               | exact ihMM _ _ (by assumption)
               | exact ihV _ _ (by assumption)
               | exact ihM _ _ (by assumption)
               | exact ihAM _ _ (by assumption)
               | exact ihA _ _ (by assumption)
               | exact ihEV _ _ (by assumption)
               | rfl)

/-- The root parse produces only errors carrying one of the four
mandatory expectations. -/
theorem parseRootF_err {fuel : Nat} {ts : List Span} {e : ParseError}
    (h : parseRootF fuel ts = .err e) : mexp e = true := by
  simp only [parseRootF] at h
  repeat' split at h
  all_goals
    first
      | exact PRes.noConfusion h
      | (injection h with h1; subst h1;
         first
           | exact mexp_expect (Or.inr (Or.inl rfl)) (by assumption)
           | exact (parseErrAll fuel).1 _ _ (by assumption))

set_option maxHeartbeats 4000000

/-! ## Claim theorems -/

/-- Claim C1: the round-trip invariant fails on the code: for the input
consisting of an open brace, a newline and a close brace, parsing
succeeds but the spans stored in the CST reconstruct only the two braces
— the newline trivia consumed at the top of the member loop of
`parse_map_members` is dropped when no key follows, so not every input
byte is covered. -/
theorem claim_c1 :
    parseReconstruct (("\x7b\n\x7d").toList) = some (("\x7b\x7d").toList) ∧
    ¬ (("\x7b\x7d").toList = ("\x7b\n\x7d").toList) := by
  exact ⟨by rfl, by decide⟩

/-- Claim C2: on every input whose lexer run completes, the produced
spans laid end to end cover the input exactly once: the first span
starts at offset 0, each following span starts where the previous one
ended, every span except the last has a non-Eof kind, and the run ends
with a single zero-length Eof span positioned at the input's length. -/
theorem claim_c2 (s : List Char) (spans : List Span)
    (h : lexer s = (spans, true)) : coverOk s.length 0 spans = true := by
  have hcov := lexAll_cover (s.length + 1) s Cursor.init .key spans h
  simpa [Cursor.init] using hcov

/-- Witness for claim C2 at the concrete input `a: 1`. -/
theorem claim_c2_witness :
    coverOk (("a: 1").toList).length 0 (lexer (("a: 1").toList)).1 = true :=
  claim_c2 (("a: 1").toList) (lexer (("a: 1").toList)).1 (by rfl)

/-- Claim C3: the linter's internal expectation that some trivia
surrounds a comma slot does fire: with missing_commas set to Deny, the
input where a member's comma directly abuts the next key panics inside
`lint_missing_comma` (the eagerly evaluated
`expect("expected some space where comma is")`), instead of returning a
lint list or a parse error; under the default configuration the same
input lints cleanly. -/
theorem claim_c3 :
    lintRun missingDenyConfig (("'x': 3,'y': 5").toList) = .panicked ∧
    lintRun defaultConfig (("'x': 3,'y': 5").toList) = .ok [] := by
  exact ⟨by rfl, by rfl⟩

/-- Claim C4: every parse error carries one of the four mandatory
expectations of the grammar (the colon after a key, the closing brace,
the closing bracket, or a value), together with the actual token's kind
and cursor; at end of input after an open brace the error is exactly
"expected closing brace, got EOF" at line 1, column 2, byte 1, and its
rendered message reads accordingly. -/
theorem claim_c4 :
    (∀ (s : List Char) (e : ParseError), parseInput s = .err e →
      mexp e = true) ∧
    parseInput (("\x7b").toList) =
      .err ⟨"\x7d", ⟨.eof, ⟨1, 2, 1⟩, 0⟩⟩ ∧
    errorMessage ⟨"\x7d", ⟨.eof, ⟨1, 2, 1⟩, 0⟩⟩ =
      "1:2: expected \x7d, got EOF" := by
  refine ⟨?_, by rfl, by rfl⟩
  intro s e h
  exact parseRootF_err h

/-- Witness for claim C4 at the concrete input consisting of a single
open brace. -/
theorem claim_c4_witness :
    mexp ⟨"\x7d", ⟨.eof, ⟨1, 2, 1⟩, 0⟩⟩ = true :=
  claim_c4.1 (("\x7b").toList) ⟨"\x7d", ⟨.eof, ⟨1, 2, 1⟩, 0⟩⟩ (by rfl)

/-- Claim C5: the number recognizer accepts a numeric prefix only when
the text after the match, once whitespace other than newlines is
skipped, starts with EOF, a newline or one of the six punctuation
characters; and `foo: 20 apples` lexes as a three-character unquoted
key, a colon, one whitespace character and a single nine-character
unquoted-text token covering `20 apples`, with no number token. -/
theorem claim_c5 :
    (∀ (s : List Char) (t : Token), numberParse s = some t →
      numberTerminated (s.drop t.len) = true) ∧
    lexer (("foo: 20 apples").toList) =
      ([⟨.textUnquoted, ⟨1, 1, 0⟩, 3⟩, ⟨.colon, ⟨1, 4, 3⟩, 1⟩,
        ⟨.whitespace, ⟨1, 5, 4⟩, 1⟩, ⟨.textUnquoted, ⟨1, 6, 5⟩, 9⟩,
        ⟨.eof, ⟨1, 15, 14⟩, 0⟩], true) := by
  exact ⟨fun s t h => (numberParse_term h).1, by rfl⟩

/-- Witness for claim C5 at the concrete input `20,x`. -/
theorem claim_c5_witness :
    numberTerminated ((("20,x").toList).drop 2) = true :=
  claim_c5.1 (("20,x").toList) ⟨.integer, 2⟩ (by rfl)

/-- Claim C6: the symbol recognizer of src/src/symbol.rs maps a leading
close bracket to the open-bracket kind — the same kind it yields for an
open bracket — contradicting the claimed one-to-one correspondence; the
recognizer of hjson-parser/src/lexer/symbol.rs (required by the parser's
close-bracket expectation and the linter's own array tests) keeps the
two kinds distinct. -/
theorem claim_c6 :
    symbolParseSrc (("]").toList) = some (.openBracket, 1) ∧
    symbolParseSrc (("[").toList) = some (.openBracket, 1) ∧
    symbolParse (("]").toList) = some ⟨.closeBracket, 1⟩ ∧
    symbolParse (("[").toList) = some ⟨.openBracket, 1⟩ := by
  exact ⟨by rfl, by rfl, by rfl, by rfl⟩

/-- Claim C7: the returned lint list is not always in document order:
`lint_map` lints the close brace's trivia before the members, so an
input with trailing whitespace both inside a braced map and after its
close brace yields the lint at byte 12 before the lint at byte 7. -/
theorem claim_c7 :
    lintRun defaultConfig (("\x7b'a': 1  \t\n\x7d  \t\n").toList) =
      .ok [⟨.trailingWhitespace, ⟨⟨2, 2, 12⟩, 3⟩⟩,
           ⟨.trailingWhitespace, ⟨⟨1, 8, 7⟩, 3⟩⟩] ∧
    lintsOrdered [⟨.trailingWhitespace, ⟨⟨2, 2, 12⟩, 3⟩⟩,
           ⟨.trailingWhitespace, ⟨⟨1, 8, 7⟩, 3⟩⟩] = false := by
  exact ⟨by rfl, by rfl⟩

/-- Claim C8: under the default configuration, `'foo': 3` lints to the
empty list; `'foo': 3` followed by two spaces and a tab yields exactly
one TrailingWhitespace lint at line 1, column 9, byte 8, of length 3; a
whitespace run followed on the same line by a comment yields no lint;
and in general the whitespace scan discards a pending whitespace run at
any token that is neither Whitespace nor NewLine nor Eof. -/
theorem claim_c8 :
    lintRun defaultConfig (("'foo': 3").toList) = .ok [] ∧
    lintRun defaultConfig (("'foo': 3  \t").toList) =
      .ok [⟨.trailingWhitespace, ⟨⟨1, 9, 8⟩, 3⟩⟩] ∧
    lintRun defaultConfig (("'foo': 3  // c").toList) = .ok [] ∧
    (∀ (lints : List Lint) (pending : Option LintSpan) (w t : Span)
      (rest : List Span), w.kind = .whitespace → t.kind ≠ .whitespace →
      t.kind ≠ .newLine → t.kind ≠ .eof →
      twScan lints pending (w :: t :: rest) = twScan lints none rest) := by
  refine ⟨by rfl, by rfl, by rfl, ?_⟩
  intro lints pending w t rest hw ht1 ht2 ht3
  simp [twScan, hw, ht1, ht2, ht3]

/-- Witness for claim C8's general conjunct at a concrete whitespace
token followed by a line comment. -/
theorem claim_c8_witness :
    twScan [] none
      [⟨.whitespace, ⟨1, 9, 8⟩, 2⟩, ⟨.lineComment, ⟨1, 11, 10⟩, 4⟩] =
      twScan [] none [] :=
  claim_c8.2.2.2 [] none ⟨.whitespace, ⟨1, 9, 8⟩, 2⟩
    ⟨.lineComment, ⟨1, 11, 10⟩, 4⟩ [] (by rfl) (by decide) (by decide)
    (by decide)

/-- Claim C9: with trailing_commas Require, `'x': 3,` newline `'y': 5`
yields exactly one zero-length TrailingComma lint just after the `5` at
line 2, column 7, byte 14; with Deny, `'foo': 3,` yields one
TrailingComma lint spanning the comma; and the rule never fires (and
never panics) for a comma slot whose trailing trivia holds no newline
and no EOF — same-line closers are exempt. -/
theorem claim_c9 :
    lintRun trailingRequireConfig (("'x': 3,\n'y': 5").toList) =
      .ok [⟨.trailingComma, ⟨⟨2, 7, 14⟩, 0⟩⟩] ∧
    lintRun trailingDenyConfig (("'foo': 3,").toList) =
      .ok [⟨.trailingComma, ⟨⟨1, 9, 8⟩, 1⟩⟩] ∧
    (∀ (cfg : Config) (comma : Node (Option Span)) (lints : List Lint),
      comma.after.any (fun sp => sp.kind = .newLine || sp.kind = .eof) =
        false →
      lintTrailingComma cfg comma lints = some lints) := by
  refine ⟨by rfl, by rfl, ?_⟩
  intro cfg comma lints hno
  unfold lintTrailingComma
  split
  · rfl
  · simp [hno]

/-- Witness for claim C9's general conjunct at a concrete comma slot
closed on the same line. -/
theorem claim_c9_witness :
    lintTrailingComma trailingDenyConfig
      ⟨[], some ⟨.comma, ⟨1, 11, 10⟩, 1⟩, [⟨.whitespace, ⟨1, 12, 11⟩, 1⟩]⟩
      [] = some [] :=
  claim_c9.2.2 trailingDenyConfig
    ⟨[], some ⟨.comma, ⟨1, 11, 10⟩, 1⟩, [⟨.whitespace, ⟨1, 12, 11⟩, 1⟩]⟩
    [] (by decide)

/-- Claim C10: with root_braces Deny, an explicit root brace yields one
ImplicitBraces lint spanning it; with Require and the brace absent, one
zero-length ImplicitBraces lint is emitted just after the leading
trivia: at line 1, column 1, byte 0 with no leading trivia, at column 1
of the next line when the last leading trivia span is a newline, and
immediately after the last leading trivia span otherwise. -/
theorem claim_c10 :
    lintRun rootDenyConfig (("\x7b 'foo': 3 \x7d").toList) =
      .ok [⟨.implicitBraces, ⟨⟨1, 1, 0⟩, 1⟩⟩] ∧
    lintRun rootRequireConfig (("'foo': 3").toList) =
      .ok [⟨.implicitBraces, ⟨⟨1, 1, 0⟩, 0⟩⟩] ∧
    lintRun rootRequireConfig (("\n'foo': 3").toList) =
      .ok [⟨.implicitBraces, ⟨⟨2, 1, 1⟩, 0⟩⟩] ∧
    lintRun rootRequireConfig ((" 'foo': 3").toList) =
      .ok [⟨.implicitBraces, ⟨⟨1, 2, 1⟩, 0⟩⟩] := by
  exact ⟨by rfl, by rfl, by rfl, by rfl⟩

end HL
